import Mathlib

/-!
Verification of the simple_irc reactive IRC client.

Strings are modelled as `List Char`; reactive streams (RxJS observables)
are modelled as the lists of values they emit, in emission order; the
stateful `scan` operator is modelled by explicit state passing.

Sources embedded here:
* `src/RxSocket.ts` — the `lines$` line transformer (a `scan` accumulator
  over incoming chunks followed by a `flatMap` over the finished lines).
* `RxIRCClient.ts` — the message parser `parseIRCMessage`, the outbound
  formatter in `send$.next`, the USER/NICK handshake, the PING/PONG
  keep-alive, channel filtering, and the `messages$` pipeline.
-/

namespace SimpleIrc

/-! ## Line transformer (src/RxSocket.ts, lines$) -/

/-- Model of the JavaScript global regex match
`incomplete.match(/[^\n]+(?:\r?\n|$)/g) || []`.

The regex scans left to right.  No match can start at a newline (the
mandatory `[^\n]+` needs a non-newline character), so newlines that sit
between matches are skipped one at a time.  At a non-newline position the
greedy `[^\n]+` consumes the maximal run of non-newline characters; the
following `(?:\r?\n|$)` then consumes the newline terminating the run when
one is present (a preceding carriage return was already taken by the run
itself), or matches the end of input.  Each match is therefore a maximal
nonempty run of non-newline characters together with the newline that
follows it, if any.  `cur` is the run accumulated so far. -/
def matchLinesAux (cur : List Char) : List Char → List (List Char)
  | [] => if cur.isEmpty then [] else [cur]
  | c :: rest =>
    if c = '\n' then
      if cur.isEmpty then matchLinesAux [] rest
      else (cur ++ ['\n']) :: matchLinesAux [] rest
    else matchLinesAux (cur ++ [c]) rest

/-- All matches of `/[^\n]+(?:\r?\n|$)/g` on a string (empty list models
the `null → []` fallback of `match`). -/
def matchLines (s : List Char) : List (List Char) :=
  matchLinesAux [] s

/-- Model of `str.replace(/\r?\n$/g, '')`: remove one trailing newline
together with the carriage return immediately before it, if any. -/
def trimTerminator (s : List Char) : List Char :=
  if s.getLast? = some '\n' then
    let t := s.dropLast
    if t.getLast? = some '\r' then t.dropLast else t
  else s

/-- The accumulator of the `scan` operator in `lines$`. -/
structure LineBuffer where
  complete : List (List Char)
  incomplete : List Char
deriving DecidableEq, Repr

/-- One step of the `scan` accumulator in `lines$`: append the new chunk
to the buffered incomplete line, match out the lines, and either emit all
of them (last one terminated) or hold the unterminated last one back. -/
def scanStep (buffer : LineBuffer) (data : List Char) : LineBuffer :=
  let incomplete := buffer.incomplete ++ data
  let lines := matchLines incomplete
  if lines.isEmpty then
    { complete := [], incomplete := [] }
  else if (lines.getLastD []).getLast? = some '\n' then
    { complete := lines.map trimTerminator, incomplete := [] }
  else
    { complete := (lines.take (lines.length - 1)).map trimTerminator,
      incomplete := lines.getLastD [] }

/-- Emissions of the full `lines$` pipeline from a given buffer state:
`scan` runs `scanStep` per chunk and the trailing `flatMap` emits each
step's `complete` list in order. -/
def runLines (buffer : LineBuffer) : List (List Char) → List (List Char)
  | [] => []
  | c :: cs =>
    let buffer' := scanStep buffer c
    buffer'.complete ++ runLines buffer' cs

/-- The line stream produced by feeding `chunks` to `lines$`, started from
the seed buffer of the `scan` (empty `complete`, empty `incomplete`). -/
def linesStream (chunks : List (List Char)) : List (List Char) :=
  runLines { complete := [], incomplete := [] } chunks

/-- The accumulator state after feeding all of `chunks` to `lines$`. -/
def runBuffer (chunks : List (List Char)) : LineBuffer :=
  chunks.foldl scanStep { complete := [], incomplete := [] }

/-! Specification-side helpers used to reason about `matchLines`: the
terminated matches and the unterminated tail, separately. -/

/-- The terminated matches of the regex: like `matchLinesAux` but without
the final unterminated run. -/
def emitAux (cur : List Char) : List Char → List (List Char)
  | [] => []
  | c :: rest =>
    if c = '\n' then
      if cur.isEmpty then emitAux [] rest
      else (cur ++ ['\n']) :: emitAux [] rest
    else emitAux (cur ++ [c]) rest

/-- The unterminated tail: the run of non-newline characters after the
last newline (all of `cur ++ s` when there is no newline). -/
def tailAux (cur : List Char) : List Char → List Char
  | [] => cur
  | c :: rest =>
    if c = '\n' then tailAux [] rest
    else tailAux (cur ++ [c]) rest

/-- True when every newline of the input ends a nonempty run of
non-newline characters, given whether the current run (`seg`) is already
nonempty; in other words the input contains no empty line. -/
def noEmptyLinesFrom (seg : Bool) : List Char → Bool
  | [] => true
  | c :: rest =>
    if c = '\n' then seg && noEmptyLinesFrom false rest
    else noEmptyLinesFrom true rest

/-- The input contains no empty line: no leading newline and no two
adjacent newlines. -/
def noEmptyLines (s : List Char) : Bool :=
  noEmptyLinesFrom false s

/-- The buffer invariant claimed by the specification, formalized: the
lines emitted so far, each with a line terminator restored, followed by
the buffered incomplete tail, reassemble the concatenation of all chunks
received so far. -/
def restoredInvariant (chunks : List (List Char)) : Prop :=
  ∃ ts : List (List Char),
    (∀ t ∈ ts, t = ['\n'] ∨ t = ['\r', '\n']) ∧
    ts.length = (linesStream chunks).length ∧
    (List.zipWith (· ++ ·) (linesStream chunks) ts).flatten
      ++ (runBuffer chunks).incomplete = chunks.flatten

/-! ## Message parser (RxIRCClient.ts, parseIRCMessage) -/

/-- Simple IRC message interface.  The field `pfx` models the optional
`prefix` field (JavaScript `undefined` is `none`). -/
structure IRCMessage where
  pfx : Option (List Char)
  command : List Char
  params : List (List Char)
deriving DecidableEq, Repr

/-- The parameter loop of `parseIRCMessage`, with the remaining input as
the cursor.  The source loops `while (true)`; the `fuel` argument makes
one unit available per iteration, and `none` models the loop failing to
exit before the fuel runs out (proved impossible below).  Each iteration:
a leading colon takes the whole remainder as the trailing parameter;
otherwise the run up to the next space is pushed as a parameter, spaces
are skipped, and the loop exits at end of input. -/
def parseParams : Nat → List Char → List (List Char) → Option (List (List Char))
  | 0, _, _ => none
  | fuel + 1, rest, acc =>
    if rest.head? = some ':' then
      some (acc ++ [rest.tail])
    else
      let param := rest.takeWhile (fun c => c != ' ')
      let rest2 := rest.dropWhile (fun c => c != ' ')
      let rest3 := rest2.dropWhile (fun c => c == ' ')
      if rest3.isEmpty then some (acc ++ [param])
      else parseParams fuel rest3 (acc ++ [param])

/-- Command-and-parameters part of `parseIRCMessage`, entered after the
optional prefix: scan the command up to a space; if no spaces follow,
return with no parameters, otherwise run the parameter loop on the rest.
The fuel handed to the loop exceeds the remaining input length, which is
enough for the loop to finish (proved below). -/
def parseCommand (pfx : Option (List Char)) (rest : List Char) : Option IRCMessage :=
  let command := rest.takeWhile (fun c => c != ' ')
  let restA := rest.dropWhile (fun c => c != ' ')
  let restB := restA.dropWhile (fun c => c == ' ')
  if (restA.takeWhile (fun c => c == ' ')).isEmpty then
    some { pfx := pfx, command := command, params := [] }
  else
    match parseParams (restB.length + 1) restB [] with
    | some ps => some { pfx := pfx, command := command, params := ps }
    | none => none

/-- Turn a raw line of text into an IRC message.  A leading colon starts
a prefix running to the next space; if no space follows the prefix the
message is returned at once with empty command and no parameters. -/
def parseIRCMessage (line : List Char) : Option IRCMessage :=
  if line.head? = some ':' then
    let afterColon := line.tail
    let pfxTok := afterColon.takeWhile (fun c => c != ' ')
    let restA := afterColon.dropWhile (fun c => c != ' ')
    let restB := restA.dropWhile (fun c => c == ' ')
    if (restA.takeWhile (fun c => c == ' ')).isEmpty then
      some { pfx := some pfxTok, command := [], params := [] }
    else
      parseCommand (some pfxTok) restB
  else
    parseCommand none line

/-! ## Protocol core (RxIRCClient.ts) -/

/-- Join a list of strings with a separator, exactly as JavaScript
`Array.prototype.join`: empty list gives the empty string, a singleton
gives its element, otherwise elements interleaved with the separator. -/
def joinSep (sep : List Char) : List (List Char) → List Char
  | [] => []
  | [x] => x
  | x :: xs => x ++ sep ++ joinSep sep xs

/-- The outbound formatter of `send$.next`: the template literal
`` `${command} ${params.slice(0, n-1).join(" ")} ` + `:${params.slice(n-1).join(" ")}\r\n` ``
where `n` is the number of parameters.  `slice(0, n-1)` is `take (n-1)`
and `slice(n-1)` is `drop (n-1)`; for the empty parameter list both JS
slices (with the negative index `-1`) and the truncated `Nat`
subtraction yield the empty list, so the model agrees with the source
there too. -/
def formatMessage (m : IRCMessage) : List Char :=
  let paramCount := m.params.length
  m.command ++ [' '] ++ joinSep [' '] (m.params.take (paramCount - 1)) ++ [' ']
    ++ [':'] ++ joinSep [' '] (m.params.drop (paramCount - 1)) ++ ['\r', '\n']

/-- Modelled from the specification's words for claim C3, for comparison
with `formatMessage`: the line `COMMAND p0 p1 ... :pLast\r\n` — the
command, then the parameters except the last, then the last parameter
prefixed with a colon, all joined by single spaces, ending in CRLF. -/
def claimedFormat (m : IRCMessage) : List Char :=
  joinSep [' '] (m.command :: m.params.dropLast) ++ [' ', ':']
    ++ m.params.getLastD [] ++ ['\r', '\n']

/-- The `messages$` pipeline stage after the line transformer: each line
is parsed, and the `flatMap` drops a line when the parser yields nothing
(`if (!message) return Rx.EMPTY`) and emits the single parsed message
otherwise. -/
def messagesOf (ls : List (List Char)) : List IRCMessage :=
  (ls.map (fun l =>
    match parseIRCMessage l with
    | none => []
    | some m => [m])).flatten

/-- The inbound-message subscription of `handleIRCProtocol`: its `switch`
sends a `PONG` reusing the parameters verbatim on command `PING` and does
nothing in the `default` branch.  The list collects the messages passed
to `send` across the whole inbound stream, in order. -/
def keepAliveResponses (ms : List IRCMessage) : List IRCMessage :=
  (ms.map (fun m =>
    if m.command = "PING".toList then
      [{ pfx := none, command := "PONG".toList, params := m.params }]
    else [])).flatten

/-- Case folding used by the channel filter; models
`String.prototype.toLowerCase` applied characterwise. -/
def lowerStr (s : List Char) : List Char :=
  s.map Char.toLower

/-- The filter predicate of `RxIRCChannel.messages$`:
`message.params.length > 0 && message.params[0].toLowerCase() == channel.toLowerCase()`
with JavaScript's short-circuiting conjunction. -/
def channelPred (channel : List Char) (m : IRCMessage) : Bool :=
  decide (0 < m.params.length) &&
    decide (lowerStr (m.params.headD []) = lowerStr channel)

/-- The message stream of a channel view: the client's inbound stream
filtered by `channelPred`. -/
def channelMessages (channel : List Char) (ms : List IRCMessage) : List IRCMessage :=
  ms.filter (channelPred channel)

/-- Client options (RxIRCClient.Options). -/
structure Options where
  hostname : List Char
  username : List Char
  port : Nat
  nick : List Char
  realName : List Char

/-- Events observed on the underlying `net.Socket` that matter to the
lifecycle signal. -/
inductive SocketEvent where
  | connectEvt
  | otherEvt
deriving DecidableEq

/-- Whether a socket event is the `connect` event. -/
def SocketEvent.isConnect : SocketEvent → Bool
  | .connectEvt => true
  | .otherEvt => false

/-- The emissions of `RxSocket.connected$` as seen by a subscriber that
subscribes at construction time: the signal is a `BehaviorSubject(false)`,
so the subscriber first receives `false`; `socket.once("connect", ...)`
pushes `true` when the first `connect` event fires and, being `once`,
never fires again however many further `connect` events the socket
emits. -/
def connectedEmissions (events : List SocketEvent) : List Bool :=
  false :: (if events.any SocketEvent.isConnect then [true] else [])

/-- The USER message built by `sendUserAndNick`. -/
def userMsg (opts : Options) : IRCMessage :=
  { pfx := none, command := "USER".toList,
    params := [opts.username, ['.'], ['.'], opts.realName] }

/-- The NICK message built by `sendUserAndNick`. -/
def nickMsg (opts : Options) : IRCMessage :=
  { pfx := none, command := "NICK".toList, params := [opts.nick] }

/-- The messages sent by the handshake subscription of
`handleIRCProtocol`: the lifecycle signal is piped through
`filter(x => x)` and every surviving emission triggers
`sendUserAndNick`, which sends USER then NICK. -/
def handshakeSends (opts : Options) (events : List SocketEvent) : List IRCMessage :=
  (((connectedEmissions events).filter (fun x => x)).map
    (fun _ => [userMsg opts, nickMsg opts])).flatten



/-! ## Lemmas about the regex model -/

theorem emitAux_nil_newline (rest : List Char) :
    emitAux [] ('\n' :: rest) = emitAux [] rest := by
  simp [emitAux]

theorem emitAux_newline (cur rest : List Char) (h : cur ≠ []) :
    emitAux cur ('\n' :: rest) = (cur ++ ['\n']) :: emitAux [] rest := by
  simp [emitAux, List.isEmpty_iff, h]

theorem emitAux_cons (c : Char) (cur rest : List Char) (h : c ≠ '\n') :
    emitAux cur (c :: rest) = emitAux (cur ++ [c]) rest := by
  simp [emitAux, h]

theorem tailAux_newline (cur rest : List Char) :
    tailAux cur ('\n' :: rest) = tailAux [] rest := by
  simp [tailAux]

theorem tailAux_cons (c : Char) (cur rest : List Char) (h : c ≠ '\n') :
    tailAux cur (c :: rest) = tailAux (cur ++ [c]) rest := by
  simp [tailAux, h]

theorem matchLinesAux_nil_newline (rest : List Char) :
    matchLinesAux [] ('\n' :: rest) = matchLinesAux [] rest := by
  simp [matchLinesAux]

theorem matchLinesAux_newline (cur rest : List Char) (h : cur ≠ []) :
    matchLinesAux cur ('\n' :: rest) = (cur ++ ['\n']) :: matchLinesAux [] rest := by
  simp [matchLinesAux, List.isEmpty_iff, h]

theorem matchLinesAux_cons (c : Char) (cur rest : List Char) (h : c ≠ '\n') :
    matchLinesAux cur (c :: rest) = matchLinesAux (cur ++ [c]) rest := by
  simp [matchLinesAux, h]

/-- The regex matches are the terminated matches followed by the
unterminated tail, when there is one. -/
theorem matchLinesAux_eq (s : List Char) : ∀ cur : List Char,
    matchLinesAux cur s =
      emitAux cur s ++ (if tailAux cur s = [] then [] else [tailAux cur s]) := by
  induction s with
  | nil =>
    intro cur
    cases cur <;> simp [matchLinesAux, emitAux, tailAux]
  | cons c rest ih =>
    intro cur
    by_cases hc : c = '\n'
    · subst hc
      by_cases hcur : cur = []
      · rw [hcur, matchLinesAux_nil_newline, emitAux_nil_newline, tailAux_newline, ih []]
      · rw [matchLinesAux_newline cur rest hcur, emitAux_newline cur rest hcur,
          tailAux_newline, ih [], List.cons_append]
    · rw [matchLinesAux_cons c cur rest hc, emitAux_cons c cur rest hc,
        tailAux_cons c cur rest hc, ih (cur ++ [c])]

/-- The unterminated tail never contains a newline. -/
theorem tailAux_no_newline (s : List Char) : ∀ cur : List Char,
    '\n' ∉ cur → '\n' ∉ tailAux cur s := by
  induction s with
  | nil => intro cur h; simpa [tailAux] using h
  | cons c rest ih =>
    intro cur hcur
    by_cases hc : c = '\n'
    · subst hc
      rw [tailAux_newline]
      exact ih [] (by simp)
    · rw [tailAux_cons c cur rest hc]
      refine ih (cur ++ [c]) ?_
      simp only [List.mem_append, List.mem_singleton]
      rintro (h1 | h1)
      · exact hcur h1
      · exact hc h1.symm

/-- Every terminated match is a nonempty newline-free run followed by a
newline. -/
theorem emitAux_mem (s : List Char) : ∀ cur l : List Char,
    '\n' ∉ cur → l ∈ emitAux cur s →
      ∃ seg, seg ≠ [] ∧ '\n' ∉ seg ∧ l = seg ++ ['\n'] := by
  induction s with
  | nil => intro cur l _ h; simp [emitAux] at h
  | cons c rest ih =>
    intro cur l hcur h
    by_cases hc : c = '\n'
    · subst hc
      by_cases hcure : cur = []
      · rw [hcure, emitAux_nil_newline] at h
        exact ih [] l (by simp) h
      · rw [emitAux_newline cur rest hcure, List.mem_cons] at h
        rcases h with h | h
        · exact ⟨cur, hcure, hcur, h⟩
        · exact ih [] l (by simp) h
    · rw [emitAux_cons c cur rest hc] at h
      refine ih (cur ++ [c]) l ?_ h
      simp only [List.mem_append, List.mem_singleton]
      rintro (h1 | h1)
      · exact hcur h1
      · exact hc h1.symm

/-- Appending inputs composes the terminated matches through the carried
tail. -/
theorem emitAux_append (s : List Char) : ∀ (t cur : List Char),
    emitAux cur (s ++ t) = emitAux cur s ++ emitAux (tailAux cur s) t := by
  induction s with
  | nil => intro t cur; simp [emitAux, tailAux]
  | cons c rest ih =>
    intro t cur
    by_cases hc : c = '\n'
    · subst hc
      by_cases hcur : cur = []
      · rw [hcur, List.cons_append, emitAux_nil_newline, emitAux_nil_newline,
          tailAux_newline, ih t []]
      · rw [List.cons_append, emitAux_newline cur _ hcur, emitAux_newline cur rest hcur,
          tailAux_newline, ih t [], List.cons_append]
    · rw [List.cons_append, emitAux_cons c cur _ hc, emitAux_cons c cur rest hc,
        tailAux_cons c cur rest hc, ih t (cur ++ [c])]

/-- Appending inputs composes the unterminated tail. -/
theorem tailAux_append (s : List Char) : ∀ (t cur : List Char),
    tailAux cur (s ++ t) = tailAux (tailAux cur s) t := by
  induction s with
  | nil => intro t cur; simp [tailAux]
  | cons c rest ih =>
    intro t cur
    by_cases hc : c = '\n'
    · subst hc
      rw [List.cons_append, tailAux_newline, tailAux_newline, ih t []]
    · rw [List.cons_append, tailAux_cons c cur _ hc, tailAux_cons c cur rest hc,
        ih t (cur ++ [c])]

/-- A newline-free piece of input is absorbed into the current run,
producing no terminated match. -/
theorem emitAux_absorb (p : List Char) : ∀ (t cur : List Char),
    '\n' ∉ p → emitAux cur (p ++ t) = emitAux (cur ++ p) t := by
  induction p with
  | nil => intro t cur _; simp
  | cons c p' ih =>
    intro t cur hp
    have hc : c ≠ '\n' := fun h => hp (by simp [h])
    rw [List.cons_append, emitAux_cons c cur _ hc,
      ih t (cur ++ [c]) (fun h => hp (List.mem_cons_of_mem c h)),
      List.append_assoc]
    rfl

/-- A newline-free piece of input is absorbed into the tail as well. -/
theorem tailAux_absorb (p : List Char) : ∀ (t cur : List Char),
    '\n' ∉ p → tailAux cur (p ++ t) = tailAux (cur ++ p) t := by
  induction p with
  | nil => intro t cur _; simp [tailAux]
  | cons c p' ih =>
    intro t cur hp
    have hc : c ≠ '\n' := fun h => hp (by simp [h])
    rw [List.cons_append, tailAux_cons c cur _ hc,
      ih t (cur ++ [c]) (fun h => hp (List.mem_cons_of_mem c h)),
      List.append_assoc]
    rfl

/-! ## The scan step, characterized -/

/-- One `scan` step emits exactly the trimmed terminated matches of the
combined buffer and keeps exactly its unterminated tail. -/
theorem scanStep_eq (b : LineBuffer) (data : List Char) :
    scanStep b data =
      { complete := (emitAux [] (b.incomplete ++ data)).map trimTerminator,
        incomplete := tailAux [] (b.incomplete ++ data) } := by
  have hsplit := matchLinesAux_eq (b.incomplete ++ data) []
  have htail : '\n' ∉ tailAux [] (b.incomplete ++ data) :=
    tailAux_no_newline _ [] (by simp)
  simp only [scanStep, matchLines]
  by_cases h : tailAux [] (b.incomplete ++ data) = []
  · rw [h, if_pos rfl, List.append_nil] at hsplit
    by_cases he : emitAux [] (b.incomplete ++ data) = []
    · rw [hsplit, he, h]
      simp
    · obtain ⟨L, l, hE⟩ := (List.eq_nil_or_concat (emitAux [] (b.incomplete ++ data))).resolve_left he
      rw [List.concat_eq_append] at hE
      obtain ⟨seg, -, -, hseg⟩ :=
        emitAux_mem (b.incomplete ++ data) [] l (by simp)
          (hE ▸ List.mem_append_right L (List.mem_singleton.mpr rfl))
      rw [hsplit, h, hE]
      have h1 : ((L ++ [l]).getLastD []).getLast? = some '\n' := by
        rw [List.getLastD_concat, hseg, List.getLast?_concat]
      rw [if_neg (by simp), if_pos h1, ← hE]
  · rw [if_neg h] at hsplit
    obtain ⟨L', l', hT⟩ := (List.eq_nil_or_concat (tailAux [] (b.incomplete ++ data))).resolve_left h
    rw [List.concat_eq_append] at hT
    have hl' : l' ≠ '\n' := by
      intro hcontra
      exact htail (hT ▸ List.mem_append_right L' (List.mem_singleton.mpr (hcontra ▸ rfl)))
    rw [hsplit]
    have h1 : ((emitAux [] (b.incomplete ++ data)
        ++ [tailAux [] (b.incomplete ++ data)]).getLastD []).getLast? ≠ some '\n' := by
      rw [List.getLastD_concat, hT, List.getLast?_concat]
      simp [hl']
    rw [if_neg (by simp), if_neg h1]
    have h2 : (emitAux [] (b.incomplete ++ data)
        ++ [tailAux [] (b.incomplete ++ data)]).length - 1
        = (emitAux [] (b.incomplete ++ data)).length := by
      simp
    rw [List.getLastD_concat, h2, List.take_left]

/-- Emissions of the pipeline from a newline-free buffered tail are the
trimmed terminated matches of the whole remaining input. -/
theorem runLines_eq (cs : List (List Char)) : ∀ (x : List (List Char)) (inc : List Char),
    '\n' ∉ inc →
    runLines ⟨x, inc⟩ cs = (emitAux [] (inc ++ cs.flatten)).map trimTerminator := by
  induction cs with
  | nil =>
    intro x inc h
    have habs : emitAux [] (inc ++ ([] : List Char)) = emitAux ([] ++ inc) [] :=
      emitAux_absorb inc [] [] h
    simp only [List.append_nil, List.nil_append] at habs
    simp [runLines, List.flatten_nil, habs, emitAux]
  | cons c cs ih =>
    intro x inc h
    simp only [runLines, scanStep_eq]
    rw [ih _ (tailAux [] (inc ++ c)) (tailAux_no_newline _ [] (by simp))]
    have habs : emitAux [] (tailAux [] (inc ++ c) ++ cs.flatten)
        = emitAux ([] ++ tailAux [] (inc ++ c)) cs.flatten :=
      emitAux_absorb _ _ [] (tailAux_no_newline _ [] (by simp))
    rw [habs, List.nil_append, List.flatten_cons, ← List.append_assoc,
      emitAux_append (inc ++ c) cs.flatten [], List.map_append]

/-- The buffered tail after any chunk sequence is the unterminated tail
of the whole input received. -/
theorem foldl_scanStep_incomplete (cs : List (List Char)) : ∀ b : LineBuffer,
    '\n' ∉ b.incomplete →
    (List.foldl scanStep b cs).incomplete = tailAux [] (b.incomplete ++ cs.flatten) := by
  induction cs with
  | nil =>
    intro b h
    have habs : tailAux [] (b.incomplete ++ ([] : List Char))
        = tailAux ([] ++ b.incomplete) [] := tailAux_absorb _ [] [] h
    simp only [List.append_nil, List.nil_append] at habs
    simp [habs, tailAux, List.flatten_nil]
  | cons c cs ih =>
    intro b h
    rw [List.foldl_cons, ih (scanStep b c) (by
      rw [scanStep_eq]
      exact tailAux_no_newline _ [] (by simp))]
    rw [scanStep_eq]
    have habs : tailAux [] (tailAux [] (b.incomplete ++ c) ++ cs.flatten)
        = tailAux ([] ++ tailAux [] (b.incomplete ++ c)) cs.flatten :=
      tailAux_absorb _ _ [] (tailAux_no_newline _ [] (by simp))
    rw [habs, List.nil_append, List.flatten_cons, ← List.append_assoc,
      tailAux_append (b.incomplete ++ c) cs.flatten []]

/-! ## Reassembly of the input from matches -/

/-- When the input contains no empty line, nothing is dropped: the
terminated matches followed by the unterminated tail reassemble the
input. -/
theorem emitAux_flatten_tailAux (s : List Char) : ∀ cur : List Char,
    noEmptyLinesFrom (!cur.isEmpty) s = true →
    (emitAux cur s).flatten ++ tailAux cur s = cur ++ s := by
  induction s with
  | nil => intro cur _; simp [emitAux, tailAux]
  | cons c rest ih =>
    intro cur hne
    by_cases hc : c = '\n'
    · subst hc
      have hstep : noEmptyLinesFrom (!cur.isEmpty) ('\n' :: rest)
          = ((!cur.isEmpty) && noEmptyLinesFrom false rest) := by
        simp [noEmptyLinesFrom]
      rw [hstep, Bool.and_eq_true] at hne
      have hcur : cur ≠ [] := by
        intro hcontra
        rw [hcontra] at hne
        simp at hne
      rw [emitAux_newline cur rest hcur, tailAux_newline, List.flatten_cons,
        List.append_assoc]
      rw [ih [] (by simpa using hne.2)]
      simp
    · rw [emitAux_cons c cur rest hc, tailAux_cons c cur rest hc]
      have hstep : noEmptyLinesFrom (!cur.isEmpty) (c :: rest)
          = noEmptyLinesFrom true rest := by
        simp [noEmptyLinesFrom, hc]
      rw [hstep] at hne
      have h2 : noEmptyLinesFrom (!(cur ++ [c]).isEmpty) rest = true := by
        have h3 : (cur ++ [c]).isEmpty = false := by
          simp [List.isEmpty_iff]
        rw [h3]
        exact hne
      rw [ih (cur ++ [c]) h2]
      simp

/-- Trimming a string that ends in a newline drops the newline and then
one carriage return, if present. -/
theorem trimTerminator_concat (s : List Char) :
    trimTerminator (s ++ ['\n'])
      = if s.getLast? = some '\r' then s.dropLast else s := by
  simp [trimTerminator]

/-- Trimming a terminated match removes exactly one line terminator,
which is a bare newline or a carriage-return-newline pair. -/
theorem trimTerminator_restore (seg : List Char) (hseg : '\n' ∉ seg) :
    ∃ t, (t = ['\n'] ∨ t = ['\r', '\n']) ∧
      trimTerminator (seg ++ ['\n']) ++ t = seg ++ ['\n'] := by
  rcases List.eq_nil_or_concat seg with hnil | ⟨L, b, hLb⟩
  · subst hnil
    exact ⟨['\n'], Or.inl rfl, by simp [trimTerminator]⟩
  · rw [List.concat_eq_append] at hLb
    subst hLb
    by_cases hb : b = '\r'
    · subst hb
      refine ⟨['\r', '\n'], Or.inr rfl, ?_⟩
      rw [trimTerminator_concat, if_pos (by rw [List.getLast?_concat]),
        List.dropLast_concat]
      simp
    · refine ⟨['\n'], Or.inl rfl, ?_⟩
      rw [trimTerminator_concat, if_neg (by rw [List.getLast?_concat]; simpa using hb)]

/-- Terminators can be chosen for all terminated matches at once. -/
theorem trim_terms_exist (s : List Char) : ∀ cur : List Char, '\n' ∉ cur →
    ∃ ts : List (List Char),
      (∀ t ∈ ts, t = ['\n'] ∨ t = ['\r', '\n']) ∧
      ts.length = (emitAux cur s).length ∧
      List.zipWith (· ++ ·) ((emitAux cur s).map trimTerminator) ts = emitAux cur s := by
  induction s with
  | nil => intro cur _; exact ⟨[], by simp, by simp [emitAux], by simp [emitAux]⟩
  | cons c rest ih =>
    intro cur hcur
    by_cases hc : c = '\n'
    · subst hc
      by_cases hcure : cur = []
      · rw [hcure, emitAux_nil_newline]
        exact ih [] (by simp)
      · obtain ⟨ts', hmem, hlen, hzip⟩ := ih [] (by simp)
        obtain ⟨t, ht, htr⟩ := trimTerminator_restore cur hcur
        refine ⟨t :: ts', ?_, ?_, ?_⟩
        · intro u hu
          rcases List.mem_cons.mp hu with h1 | h1
          · exact h1 ▸ ht
          · exact hmem u h1
        · rw [emitAux_newline cur rest hcure]
          simpa using hlen
        · rw [emitAux_newline cur rest hcure, List.map_cons, List.zipWith_cons_cons,
            htr, hzip]
    · rw [emitAux_cons c cur rest hc]
      refine ih (cur ++ [c]) ?_
      simp only [List.mem_append, List.mem_singleton]
      rintro (h1 | h1)
      · exact hcur h1
      · exact hc h1.symm

/-! ## Claim C1 -/

/-- C1: for every payload and every way of splitting it into a sequence
of chunks (including splits that fall between a carriage return and its
newline), feeding the chunks one at a time through the line transformer
emits exactly the same ordered sequence of terminator-stripped lines as
feeding the whole payload as a single chunk.  This holds for arbitrary
payloads, in particular for payloads using the terminators of the
claim. -/
theorem lines_chunking_invariance (chunks : List (List Char)) :
    linesStream chunks = linesStream [chunks.flatten] := by
  rw [linesStream, linesStream, runLines_eq chunks [] [] (by simp),
    runLines_eq [chunks.flatten] [] [] (by simp)]
  simp

/-! ## Claim C2 -/

/-- C2 as stated is false: the single chunk consisting of one bare
newline emits no line and leaves an empty buffer, so no choice of
restored terminators reassembles the chunk. -/
theorem buffer_invariant_counterexample : ¬ restoredInvariant [['\n']] := by
  rintro ⟨ts, -, hlen, heq⟩
  have h1 : linesStream [['\n']] = [] := rfl
  have h2 : (runBuffer [['\n']]).incomplete = [] := rfl
  rw [h1] at hlen
  have hts : ts = [] := List.length_eq_zero.mp hlen
  rw [h1, hts, h2] at heq
  simp at heq

/-- C2 amended: the buffer invariant holds as soon as the concatenated
input contains no empty line, that is no leading newline and no two
adjacent newlines (the transformer silently drops empty lines, which is
the only way the invariant can break); the per-step part of the claim is
unconditional: a step's `complete` output never depends on the previous
step's `complete` output, so each step's `complete` holds only the lines
finished by that step. -/
theorem buffer_invariant_amended (chunks c1 c2 : List (List Char)) (inc d : List Char)
    (hne : noEmptyLines chunks.flatten = true) :
    restoredInvariant chunks ∧
      scanStep { complete := c1, incomplete := inc } d
        = scanStep { complete := c2, incomplete := inc } d := by
  refine ⟨?_, rfl⟩
  obtain ⟨ts, hmem, hlen, hzip⟩ := trim_terms_exist chunks.flatten [] (by simp)
  refine ⟨ts, hmem, ?_, ?_⟩
  · rw [linesStream, runLines_eq chunks [] [] (by simp), List.nil_append]
    simpa using hlen
  · rw [linesStream, runLines_eq chunks [] [] (by simp), List.nil_append,
      runBuffer, foldl_scanStep_incomplete chunks _ (by simp)]
    simp only [List.nil_append]
    rw [hzip]
    exact emitAux_flatten_tailAux chunks.flatten [] (by simpa using hne)

/-- Witness for the amended C2, at the split of "a\r\nb" that separates
the carriage return from its newline. -/
theorem buffer_invariant_amended_witness :
    restoredInvariant [['a', '\r'], ['\n', 'b']] ∧
      scanStep { complete := [], incomplete := ['q'] } ['w']
        = scanStep { complete := [['z']], incomplete := ['q'] } ['w'] :=
  buffer_invariant_amended [['a', '\r'], ['\n', 'b']] [] [['z']] ['q'] ['w'] (by decide)

/-! ## Parser lemmas -/

theorem length_dropWhile_le (p : Char → Bool) : ∀ l : List Char,
    (l.dropWhile p).length ≤ l.length := by
  intro l
  induction l with
  | nil => simp [List.dropWhile]
  | cons c t ih =>
    rw [List.dropWhile_cons]
    by_cases h : p c = true
    · rw [if_pos h]
      exact Nat.le_succ_of_le ih
    · rw [if_neg h]

/-- The parameter loop exits within one iteration per remaining input
character: any fuel beyond the input length suffices. -/
theorem parseParams_isSome : ∀ (fuel : Nat) (rest : List Char) (acc : List (List Char)),
    rest.length < fuel → (parseParams fuel rest acc).isSome = true := by
  intro fuel
  induction fuel with
  | zero => intro rest acc h; exact absurd h (Nat.not_lt_zero _)
  | succ fuel ih =>
    intro rest acc h
    have hunfold : parseParams (fuel + 1) rest acc =
        if rest.head? = some ':' then some (acc ++ [rest.tail])
        else
          if ((rest.dropWhile (fun c => c != ' ')).dropWhile (fun c => c == ' ')).isEmpty then
            some (acc ++ [rest.takeWhile (fun c => c != ' ')])
          else
            parseParams fuel ((rest.dropWhile (fun c => c != ' ')).dropWhile (fun c => c == ' '))
              (acc ++ [rest.takeWhile (fun c => c != ' ')]) := by
      simp only [parseParams]
    rw [hunfold]
    by_cases hcol : rest.head? = some ':'
    · rw [if_pos hcol]; rfl
    · rw [if_neg hcol]
      by_cases he : ((rest.dropWhile (fun c => c != ' ')).dropWhile (fun c => c == ' ')).isEmpty = true
      · rw [if_pos he]; rfl
      · rw [if_neg he]
        refine ih _ _ ?_
        have hlt : ((rest.dropWhile (fun c => c != ' ')).dropWhile (fun c => c == ' ')).length
            < rest.length := by
          cases rest with
          | nil => simp [List.dropWhile] at he
          | cons c t =>
            by_cases hsp : (c != ' ') = true
            · rw [List.dropWhile_cons, if_pos hsp]
              have h1 := length_dropWhile_le (fun c => c == ' ') (t.dropWhile (fun c => c != ' '))
              have h2 := length_dropWhile_le (fun c => c != ' ') t
              simp only [List.length_cons]
              omega
            · have hc : (c == ' ') = true := by
                simpa [bne] using hsp
              rw [List.dropWhile_cons, if_neg hsp, List.dropWhile_cons, if_pos hc]
              have h1 := length_dropWhile_le (fun c => c == ' ') t
              simp only [List.length_cons]
              omega
        omega

/-- The command-and-parameters stage always produces a message. -/
theorem parseCommand_isSome (pfx : Option (List Char)) (rest : List Char) :
    (parseCommand pfx rest).isSome = true := by
  simp only [parseCommand]
  by_cases he : ((rest.dropWhile (fun c => c != ' ')).takeWhile (fun c => c == ' ')).isEmpty = true
  · rw [if_pos he]; rfl
  · rw [if_neg he]
    obtain ⟨ps, hps⟩ := Option.isSome_iff_exists.mp
      (parseParams_isSome _ ((rest.dropWhile (fun c => c != ' ')).dropWhile (fun c => c == ' '))
        [] (Nat.lt_succ_self _))
    rw [hps]
    rfl

/-- The whole parser always produces a message. -/
theorem parseIRCMessage_isSome (line : List Char) : (parseIRCMessage line).isSome = true := by
  simp only [parseIRCMessage]
  by_cases hcol : line.head? = some ':'
  · rw [if_pos hcol]
    by_cases he : ((line.tail.dropWhile (fun c => c != ' ')).takeWhile (fun c => c == ' ')).isEmpty = true
    · rw [if_pos he]; rfl
    · rw [if_neg he]
      exact parseCommand_isSome _ _
  · rw [if_neg hcol]
    exact parseCommand_isSome _ _

/-! ## Claim C5 -/

/-- C5: for every input string, parseIRCMessage terminates with a result:
the parameter-scanning loop, given one unit of fuel per remaining input
character plus one, always exits before exhausting its fuel, so no input
makes parsing fail to produce a message. -/
theorem parse_always_terminates (line : List Char) :
    (parseIRCMessage line).isSome = true :=
  parseIRCMessage_isSome line

/-! ## Claim C6 -/

/-- C6 as stated is false on blank input: a line of one space parses to a
single empty parameter, not to an empty parameter list — after the empty
command, `skipSpaces` succeeds on the blanks, so the parameter loop runs
once at end of input and pushes the empty parameter. -/
theorem parse_blank_counterexample :
    parseIRCMessage [' '] = some { pfx := none, command := [], params := [[]] } ∧
      parseIRCMessage [' '] ≠ some { pfx := none, command := [], params := [] } := by
  constructor
  · rfl
  · decide

/-- C6 amended: the empty line parses to an empty prefix, command and
parameter list, as claimed, while a nonempty all-blank line parses to
the empty command with one single empty parameter. -/
theorem parse_blank_amended (line : List Char) :
    (line = [] → parseIRCMessage line = some { pfx := none, command := [], params := [] }) ∧
    (line ≠ [] → (∀ c ∈ line, c = ' ') →
      parseIRCMessage line = some { pfx := none, command := [], params := [[]] }) := by
  constructor
  · rintro rfl; rfl
  · intro hne hsp
    obtain ⟨c, t, rfl⟩ := List.exists_cons_of_ne_nil hne
    have hc : c = ' ' := hsp c (List.mem_cons_self c t)
    subst hc
    have hall : ∀ x ∈ (' ' :: t), (x == ' ') = true := by
      intro x hx
      simp [hsp x hx]
    simp only [parseIRCMessage]
    rw [if_neg (by simp)]
    simp only [parseCommand]
    have h2 : ((' ' :: t).dropWhile (fun c => c != ' ')) = ' ' :: t := by
      rw [List.dropWhile_cons]
      simp
    have h3 : ((' ' :: t).takeWhile (fun c => c == ' ')).isEmpty = false := by
      rw [List.takeWhile_cons]
      simp
    have h4 : ((' ' :: t).dropWhile (fun c => c == ' ')) = [] :=
      List.dropWhile_eq_nil_iff.mpr hall
    rw [h2, if_neg (by rw [h3]; exact Bool.false_ne_true)]
    rw [h4]
    have h1 : ((' ' :: t).takeWhile (fun c => c != ' ')) = [] := by
      rw [List.takeWhile_cons]
      simp
    rw [h1]
    rfl

/-- Witness for the amended C6 at the two-space line. -/
theorem parse_blank_amended_witness :
    parseIRCMessage [' ', ' '] = some { pfx := none, command := [], params := [[]] } :=
  (parse_blank_amended [' ', ' ']).2 (by decide) (by decide)

/-! ## Claim C10 -/

/-- C10: the parser never yields nothing, so the drop branch of the
`messages$` pipeline is unreachable — every line completed by the line
transformer yields exactly one message, in order, on the inbound
stream. -/
theorem messages_one_per_line (ls : List (List Char)) :
    messagesOf ls
        = ls.map (fun l =>
            (parseIRCMessage l).getD { pfx := none, command := [], params := [] }) ∧
      (messagesOf ls).length = ls.length := by
  have h1 : messagesOf ls = ls.map (fun l =>
      (parseIRCMessage l).getD { pfx := none, command := [], params := [] }) := by
    induction ls with
    | nil => rfl
    | cons l t ih =>
      obtain ⟨m, hm⟩ := Option.isSome_iff_exists.mp (parseIRCMessage_isSome l)
      have hstep : messagesOf (l :: t)
          = (match parseIRCMessage l with
             | none => []
             | some m => [m]) ++ messagesOf t := by
        simp [messagesOf]
      rw [hstep, hm, List.map_cons, ih]
      simp [hm]
  exact ⟨h1, by rw [h1, List.length_map]⟩

/-! ## Claim C3 -/

/-- C3 as stated is false for a one-parameter message: the template
always inserts a space after the command and another before the colon,
so `NICK` with one parameter is sent with two spaces between command and
colon, not one. -/
theorem format_counterexample :
    formatMessage { pfx := none, command := "NICK".toList, params := ["VolteTest".toList] }
      ≠ claimedFormat { pfx := none, command := "NICK".toList, params := ["VolteTest".toList] } := by
  decide

/-- C3 amended: with at least two parameters the formatter produces
exactly the claimed line `COMMAND p0 p1 ... :pLast\r\n`; in general (so
with exactly one parameter as well) it produces the command, a space, the
space-joined leading parameters, then a further space, the colon, the
last parameter and CRLF — which for a single parameter leaves two spaces
between the command and the colon. -/
theorem format_amended (p : Option (List Char)) (cmd lastP : List Char)
    (ps : List (List Char)) :
    (ps ≠ [] → formatMessage { pfx := p, command := cmd, params := ps ++ [lastP] }
        = claimedFormat { pfx := p, command := cmd, params := ps ++ [lastP] }) ∧
    formatMessage { pfx := p, command := cmd, params := ps ++ [lastP] }
      = cmd ++ [' '] ++ joinSep [' '] ps ++ [' ', ':'] ++ lastP ++ ['\r', '\n'] := by
  have hmain : formatMessage { pfx := p, command := cmd, params := ps ++ [lastP] }
      = cmd ++ [' '] ++ joinSep [' '] ps ++ [' ', ':'] ++ lastP ++ ['\r', '\n'] := by
    simp only [formatMessage]
    have hlen : (ps ++ [lastP]).length - 1 = ps.length := by simp
    rw [hlen, List.take_left, List.drop_left]
    have hj : joinSep [' '] [lastP] = lastP := rfl
    rw [hj]
    simp
  refine ⟨?_, hmain⟩
  intro hne
  obtain ⟨q, ps', rfl⟩ := List.exists_cons_of_ne_nil hne
  rw [hmain]
  simp only [claimedFormat]
  rw [List.dropLast_concat, List.getLastD_concat]
  have hj2 : joinSep [' '] (cmd :: q :: ps') = cmd ++ [' '] ++ joinSep [' '] (q :: ps') := rfl
  rw [hj2]

/-- Witness for the amended C3 at a two-parameter PRIVMSG. -/
theorem format_amended_witness :
    formatMessage { pfx := none, command := "PRIVMSG".toList, params := ["#chan".toList] ++ ["hello".toList] }
      = claimedFormat { pfx := none, command := "PRIVMSG".toList, params := ["#chan".toList] ++ ["hello".toList] } :=
  (format_amended none "PRIVMSG".toList "hello".toList ["#chan".toList]).1 (by decide)

/-! ## Claim C9 -/

/-- C9: formatting a message with no parameters is harmless — the
degenerate slices both yield the empty list and the formatter still
produces a definite line, the command followed by two spaces, a colon
and CRLF, which is then written normally. -/
theorem format_empty_params (p : Option (List Char)) (cmd : List Char) :
    formatMessage { pfx := p, command := cmd, params := [] }
      = cmd ++ [' ', ' ', ':', '\r', '\n'] := by
  simp [formatMessage, joinSep]

/-! ## Claim C7 -/

/-- C7: across any inbound stream, the protocol handler's sends are
exactly one PONG per PING, with the PING's parameter list reused
verbatim, in stream order, and nothing is sent for any other message. -/
theorem ping_pong_exact (ms : List IRCMessage) :
    keepAliveResponses ms
      = (ms.filter (fun m => decide (m.command = "PING".toList))).map
          (fun m => { pfx := none, command := "PONG".toList, params := m.params }) := by
  induction ms with
  | nil => rfl
  | cons m t ih =>
    have hstep : keepAliveResponses (m :: t)
        = (if m.command = "PING".toList then
            [{ pfx := none, command := "PONG".toList, params := m.params }]
          else []) ++ keepAliveResponses t := by
      simp [keepAliveResponses]
    rw [hstep, ih]
    by_cases h : m.command = "PING".toList
    · rw [if_pos h, List.filter_cons_of_pos (by simp [h]), List.map_cons]
      rfl
    · rw [if_neg h, List.filter_cons_of_neg (by simpa using h)]
      simp

/-! ## Claim C8 -/

/-- C8: a channel view's stream yields a message exactly when the
message is on the inbound stream, has at least one parameter, and its
first parameter equals the channel name case-insensitively; in
particular a message with no parameters never appears. -/
theorem channel_filter_iff (channel : List Char) (ms : List IRCMessage) (m : IRCMessage) :
    m ∈ channelMessages channel ms ↔
      m ∈ ms ∧ ∃ q rest, m.params = q :: rest ∧ lowerStr q = lowerStr channel := by
  rw [channelMessages, List.mem_filter]
  refine and_congr_right fun _ => ?_
  cases hp : m.params with
  | nil => simp [channelPred, hp]
  | cons q rest => simp [channelPred, hp]

/-! ## Claim C4 -/

/-- C4: for every socket event sequence, the handshake sends exactly one
USER message with parameters username, ".", ".", realName followed by
exactly one NICK message with the nick, when a connect event occurs at
all, and nothing otherwise; repeated (spurious) connect events never
produce a second pair, because the once-subscription feeds the lifecycle
signal a single true. -/
theorem handshake_once (opts : Options) (events : List SocketEvent) :
    handshakeSends opts events
      = if events.any SocketEvent.isConnect then
          [{ pfx := none, command := "USER".toList, params := [opts.username, ['.'], ['.'], opts.realName] },
           { pfx := none, command := "NICK".toList, params := [opts.nick] }]
        else [] := by
  by_cases h : events.any SocketEvent.isConnect
  · simp [handshakeSends, connectedEmissions, h, userMsg, nickMsg]
  · simp [handshakeSends, connectedEmissions, h]

end SimpleIrc
